import Mathlib

/-!
# Verification of `protojsonaes`

A shallow embedding of the Go package `protojsonaes` (files `aes.go`,
`aes_protojson.go`, `aes_jsonpb.go`): PKCS padding, the AES-CBC envelope
(`Encrypt` / `Decrypt`) and the encode path of the codec wrappers.

Conventions of the embedding

* a Go `[]byte` is a `List Byte` (a `nil` slice and an empty slice are both `[]`);
* a Go `int` is an `Int` (no operation of the package can overflow on the inputs
  considered: lengths are non-negative and the block size is positive); a slice too
  long for the runtime to allocate is a panic (`maxAlloc`);
* a Go call either returns or panics: `Run α`;
* a Go result `([]byte, error)` is a pair `List Byte × Option Err`, `none` being `nil`.
-/

namespace Protojsonaes

/-! ## Data model -/

/-- A Go `byte`: an unsigned eight-bit value. -/
abbrev Byte := Fin 256

/-- The Go conversion `byte(x)` of an `int`: only the low eight bits are kept. -/
def toByte (x : Int) : Byte := ⟨(x % 256).toNat, by omega⟩

/-- The error values the package can return. -/
inductive Err
  /-- The variable `ErrPaddingSize`: "padding size error". -/
  | paddingSize
  /-- The error "plaintext can not be empty". -/
  | plaintextEmpty
  /-- The error "cipherText can not be empty". -/
  | cipherTextEmpty
  /-- The error "key length must be length of block size". -/
  | keyLength
  /-- The error "plaintext is not a multiple of the block size". -/
  | plaintextNotMultiple
  /-- The error "ciphertext is not a multiple of the block size". -/
  | ciphertextNotMultiple
  /-- The error `aes.KeySizeError` of `aes.NewCipher`. -/
  | keySize (n : Nat)
  /-- An error of `io.ReadFull(rand.Reader, iv)`. -/
  | randRead
  /-- An error reported by the external (protojson / json) encoder. -/
  | external (code : Nat)
  deriving DecidableEq, Repr

/-- The outcome of running a Go function: a normal return, or a runtime panic. -/
inductive Run (α : Type) where
  | ret (a : α)
  | panic
  deriving DecidableEq, Repr

/-- The Go result type `([]byte, error)`. -/
abbrev BytesErr := List Byte × Option Err

/-- The constant `aes.BlockSize`. -/
def BlockSize : Nat := 16

/-- The Go index expression `s[i]`: `none` stands for the index-out-of-range panic. -/
def index (s : List Byte) (i : Int) : Option Byte :=
  if i < 0 then none else s[i.toNat]?

/-! ## `aes.go`: padding -/

/-- The constant `maxAlloc` of the Go runtime on 64-bit platforms, `1 << 48`: the
allocation of a byte slice longer than this panics ("makeslice: len out of range"). -/
def maxAlloc : Int := 281474976710656

/-- The method `(*pkcs5).Padding`.
`srcLen % blockSize` panics for a zero divisor; `bytes.Repeat` panics for a negative
count and for a count that the runtime cannot allocate. -/
def Padding (src : List Byte) (blockSize : Int) : Run (List Byte) :=
  let srcLen : Int := src.length
  if blockSize = 0 then .panic
  else
    let padLen : Int := blockSize - Int.tmod srcLen blockSize
    if padLen < 0 then .panic
    else if padLen > maxAlloc then .panic
    else
      let padText := List.replicate padLen.toNat (toByte padLen)
      .ret (src ++ padText)

/-- The method `(*pkcs5).Unpadding`. -/
def Unpadding (src : List Byte) (blockSize : Int) : Run BytesErr :=
  let srcLen : Int := src.length
  match index src (srcLen - 1) with
  | none => .panic
  | some b =>
    let paddingLen : Int := b.val
    if paddingLen ≥ srcLen ∨ paddingLen > blockSize then
      .ret ([], some Err.paddingSize)
    else
      .ret (src.take (srcLen - paddingLen).toNat, none)

/-! ## The cipher primitives used by `aes.go` (standard library) -/

/-- The AES primitive, abstracted: a keyed transformation of blocks and its
inverse direction. Its laws are stated separately (`BlockCipher.Lawful`). -/
structure BlockCipher where
  encrypt : List Byte → List Byte → List Byte
  decrypt : List Byte → List Byte → List Byte

/-- Block ciphers map a block (16 bytes) to a block under a 16-byte key. -/
def BlockCipher.KeepsSize (c : BlockCipher) : Prop :=
  ∀ key blk : List Byte, key.length = BlockSize → blk.length = BlockSize →
    (c.encrypt key blk).length = BlockSize

/-- Block decryption inverts block encryption under a 16-byte key. -/
def BlockCipher.Inverts (c : BlockCipher) : Prop :=
  ∀ key blk : List Byte, key.length = BlockSize → blk.length = BlockSize →
    c.decrypt key (c.encrypt key blk) = blk

/-- A keyed block permutation: sizes are kept and decryption inverts encryption. -/
def BlockCipher.Lawful (c : BlockCipher) : Prop := c.KeepsSize ∧ c.Inverts

/-- A `cipher.Block`: the cipher once keyed. -/
structure Block where
  Encrypt : List Byte → List Byte
  Decrypt : List Byte → List Byte

/-- The standard-library function `aes.NewCipher` (external to the repository): it accepts
keys of 16, 24 or 32 bytes and fails with `aes.KeySizeError` otherwise. Both callers
test `len(key) == aes.BlockSize` first, so that its error is never returned by them. -/
def NewCipher (c : BlockCipher) (key : List Byte) : Except Err Block :=
  if key.length = 16 ∨ key.length = 24 ∨ key.length = 32 then
    .ok ⟨c.encrypt key, c.decrypt key⟩
  else .error (Err.keySize key.length)

/-- Exclusive or of two bytes. -/
def bxor (a b : Byte) : Byte :=
  ⟨a.val ^^^ b.val, @Nat.xor_lt_two_pow a.val b.val 8 a.isLt b.isLt⟩

/-- The function `subtle.XORBytes` as a value: the bytewise exclusive or over the common length. -/
def xorBytes (x y : List Byte) : List Byte := List.zipWith bxor x y

/-- Modelled from the spec: the chaining of CBC encryption over `n` blocks (standard
library `crypto/cipher`, not in the repository): ciphertext block `i` is the
encryption of plaintext block `i` xor-ed with ciphertext block `i-1`, seeded by the IV. -/
def cbcEncryptBlocks (b : Block) : Nat → List Byte → List Byte → List Byte
  | 0, _, _ => []
  | n + 1, iv, src =>
    let ct := b.Encrypt (xorBytes (src.take BlockSize) iv)
    ct ++ cbcEncryptBlocks b n ct (src.drop BlockSize)

/-- Modelled from the spec: the chaining of CBC decryption over `n` blocks (standard
library `crypto/cipher`, not in the repository): plaintext block `i` is the
decryption of ciphertext block `i` xor-ed with ciphertext block `i-1`, seeded by the IV. -/
def cbcDecryptBlocks (b : Block) : Nat → List Byte → List Byte → List Byte
  | 0, _, _ => []
  | n + 1, iv, src =>
    let blk := src.take BlockSize
    xorBytes (b.Decrypt blk) iv ++ cbcDecryptBlocks b n blk (src.drop BlockSize)

/-- Modelled from the spec: `cipher.NewCBCEncrypter(block, iv)` followed by
`CryptBlocks(dst, src)`, returning the bytes written to `dst`. The library panics
when the IV is not one block long and when `src` is not made of full blocks. -/
def cbcEncrypt (b : Block) (iv src : List Byte) : Run (List Byte) :=
  if iv.length ≠ BlockSize then .panic
  else if src.length % BlockSize ≠ 0 then .panic
  else .ret (cbcEncryptBlocks b (src.length / BlockSize) iv src)

/-- Modelled from the spec: `cipher.NewCBCDecrypter(block, iv)` followed by
`CryptBlocks(dst, src)`, returning the bytes written to `dst`. The library panics
when the IV is not one block long and when `src` is not made of full blocks. -/
def cbcDecrypt (b : Block) (iv src : List Byte) : Run (List Byte) :=
  if iv.length ≠ BlockSize then .panic
  else if src.length % BlockSize ≠ 0 then .panic
  else .ret (cbcDecryptBlocks b (src.length / BlockSize) iv src)

/-! ## `aes.go`: the envelope -/

/-- The function `Encrypt`. The argument `rnd` is the outcome of
`io.ReadFull(rand.Reader, iv)`: `none` when the read fails, `some iv` with the
16 bytes read when it succeeds. -/
def Encrypt (c : BlockCipher) (rnd : Option (List Byte)) (key plainText : List Byte) :
    Run BytesErr :=
  if plainText.length = 0 then .ret ([], some Err.plaintextEmpty)
  else if key.length ≠ BlockSize then .ret ([], some Err.keyLength)
  else
    match Padding plainText BlockSize with
    | .panic => .panic
    | .ret plainText =>
      if plainText.length < BlockSize ∨ plainText.length % BlockSize ≠ 0 then
        .ret ([], some Err.plaintextNotMultiple)
      else
        match NewCipher c key with
        | .error err => .ret ([], some err)
        | .ok block =>
          match rnd with
          | none => .ret ([], some Err.randRead)
          | some iv =>
            match cbcEncrypt block iv plainText with
            | .panic => .panic
            | .ret ct => .ret (iv ++ ct, none)

/-- The function `Decrypt`. -/
def Decrypt (c : BlockCipher) (key cipherText : List Byte) : Run BytesErr :=
  if cipherText.length = 0 then .ret ([], some Err.cipherTextEmpty)
  else if cipherText.length % BlockSize ≠ 0 then .ret ([], some Err.ciphertextNotMultiple)
  else if key.length ≠ BlockSize then .ret ([], some Err.keyLength)
  else
    match NewCipher c key with
    | .error err => .ret ([], some err)
    | .ok block =>
      let iv := cipherText.take BlockSize
      let cipherText := cipherText.drop BlockSize
      match cbcDecrypt block iv cipherText with
      | .panic => .panic
      | .ret cipherText => Unpadding cipherText BlockSize

/-! ## `aes_protojson.go` and `aes_jsonpb.go`: the encode path of the wrappers -/

/-- The struct `MarshalOptions` of `aes_protojson.go`. Its field `MarshalOptions`
(a `*protojson.MarshalOptions`, external) is the field `protojson` here, represented
by its method `Marshal`; `none` is the nil pointer. -/
structure MarshalOptions (Msg : Type) where
  protojson : Option (Msg → BytesErr)
  UseAESEncryption : Bool
  AESEncryptionKey : List Byte

/-- The struct `UnmarshalOptions` of `aes_protojson.go`. Its field `UnmarshalOptions`
(a `*protojson.UnmarshalOptions`, external) is the field `protojson` here,
represented by its method `Unmarshal`; `none` is the nil pointer. -/
structure UnmarshalOptions (Msg : Type) where
  protojson : Option (List Byte → Msg → Msg × Option Err)
  UseAESEncryption : Bool
  AESEncryptionKey : List Byte

/-- The struct `JSONPbAES`: it embeds both option structs and has a flag and a key of
its own, which shadow the embedded fields of the same names. -/
structure JSONPbAES (Msg : Type) where
  MarshalOptions : Protojsonaes.MarshalOptions Msg
  UnmarshalOptions : Protojsonaes.UnmarshalOptions Msg
  UseAESEncryption : Bool
  AESEncryptionKey : List Byte

/-- A Go `interface{}` value handed to the marshaler: either its dynamic type
implements `proto.Message`, or it does not. -/
inductive Value (Msg Other : Type) where
  | message (p : Msg)
  | other (x : Other)

/-- The method `MarshalOptions.Marshal` of `aes_protojson.go`. Calling the external
encoder through a nil pointer panics. -/
def MarshalOptions.Marshal {Msg : Type} (c : BlockCipher) (rnd : Option (List Byte))
    (o : Protojsonaes.MarshalOptions Msg) (m : Msg) : Run BytesErr :=
  match o.protojson with
  | none => .panic
  | some encode =>
    match encode m with
    | (b, some err) => .ret (b, some err)
    | (b, none) =>
      if o.UseAESEncryption then Encrypt c rnd o.AESEncryptionKey b
      else .ret (b, none)

/-- The method `(*JSONPbAES).marshalTo`, returning the bytes written to `w` and the
error. The reflection-based `marshalNonProtoField` is the argument `nonProto`; a
write to the `bytes.Buffer` does not fail. -/
def JSONPbAES.marshalTo {Msg Other : Type} (c : BlockCipher) (rnd : Option (List Byte))
    (nonProto : Other → Run BytesErr) (j : JSONPbAES Msg) (v : Value Msg Other) :
    Run BytesErr :=
  match v with
  | .other x =>
    match nonProto x with
    | .panic => .panic
    | .ret (_, some err) => .ret ([], some err)
    | .ret (buf, none) => .ret (buf, none)
  | .message p =>
    match j.MarshalOptions.Marshal c rnd p with
    | .panic => .panic
    | .ret (_, some err) => .ret ([], some err)
    | .ret (b, none) => .ret (b, none)

/-- The method `(*JSONPbAES).marshal`. -/
def JSONPbAES.marshal {Msg Other : Type} (c : BlockCipher) (rnd : Option (List Byte))
    (nonProto : Other → Run BytesErr) (j : JSONPbAES Msg) (v : Value Msg Other) :
    Run BytesErr :=
  match v with
  | .other x => nonProto x
  | .message _ =>
    match j.marshalTo c rnd nonProto v with
    | .panic => .panic
    | .ret (_, some err) => .ret ([], some err)
    | .ret (buf, none) => .ret (buf, none)

/-- The method `(*JSONPbAES).Marshal`. The argument `rndInner` is the outcome of the
random read of the `Encrypt` call made by the embedded `MarshalOptions` (when it makes
one), `rndOuter` that of the `Encrypt` call made by `Marshal` itself. -/
def JSONPbAES.Marshal {Msg Other : Type} (c : BlockCipher)
    (rndInner rndOuter : Option (List Byte)) (nonProto : Other → Run BytesErr)
    (j : JSONPbAES Msg) (v : Value Msg Other) : Run BytesErr :=
  match j.marshal c rndInner nonProto v with
  | .panic => .panic
  | .ret (_, some err) => .ret ([], some err)
  | .ret (b, none) =>
    if j.UseAESEncryption then Encrypt c rndOuter j.AESEncryptionKey b
    else .ret (b, none)

/-! ## Concrete data for evaluation -/

/-- A small keyed block permutation used to evaluate the envelope on concrete
inputs: the block is xor-ed with the key and reversed. -/
def xorCipher : BlockCipher where
  encrypt key blk := (xorBytes blk key).reverse
  decrypt key blk := xorBytes blk.reverse key

/-- Sixteen zero bytes. -/
def zeroKey : List Byte := List.replicate 16 0

/-- The bytes of the ASCII text "hello". -/
def hello : List Byte := [104, 101, 108, 108, 111]

/-- A sample initialisation vector. -/
def sampleIV : List Byte := [1, 2, 3, 4, 5, 6, 7, 8, 9, 10, 11, 12, 13, 14, 15, 16]

/-- The bytes of the JSON text of an empty message: an opening and a closing brace. -/
def emptyObject : List Byte := [123, 125]

/-- An external encoder that encodes every message as the empty JSON object. -/
def constEncoder : Unit → BytesErr := fun _ => (emptyObject, none)

/-- A wrapper configuration whose own flag is off while the flag of the embedded
`MarshalOptions` is on. -/
def innerOnly : JSONPbAES Unit where
  MarshalOptions := ⟨some constEncoder, true, zeroKey⟩
  UnmarshalOptions := ⟨none, false, []⟩
  UseAESEncryption := false
  AESEncryptionKey := zeroKey

/-- A wrapper configuration whose own flag is on while both embedded flags are off. -/
def outerOnly : JSONPbAES Unit where
  MarshalOptions := ⟨some constEncoder, false, []⟩
  UnmarshalOptions := ⟨none, false, []⟩
  UseAESEncryption := true
  AESEncryptionKey := zeroKey

/-- A stand-in for `marshalNonProtoField` on a type without values. -/
def noOther : Empty → Run BytesErr := fun x => nomatch x

/-! ## Basic facts -/

theorem bxor_cancel (a b : Byte) : bxor (bxor a b) b = a := by
  apply Fin.ext
  simp [bxor, Nat.xor_assoc]

theorem xorBytes_length (x y : List Byte) :
    (xorBytes x y).length = min x.length y.length := by
  simp [xorBytes]

theorem xorBytes_cancel : ∀ (x y : List Byte), x.length ≤ y.length →
    xorBytes (xorBytes x y) y = x
  | [], _, _ => by simp [xorBytes]
  | a :: x, [], h => by simp at h
  | a :: x, b :: y, h => by
    have ih := xorBytes_cancel x y (by simpa using h)
    simp only [xorBytes, List.zipWith_cons_cons] at ih ⊢
    rw [ih, bxor_cancel]

theorem xorCipher_lawful : xorCipher.Lawful := by
  constructor
  · intro key blk hk hb
    simp [xorCipher, xorBytes_length, hk, hb]
  · intro key blk hk hb
    simp only [xorCipher, List.reverse_reverse]
    exact xorBytes_cancel blk key (by omega)

/-! ## Padding -/

/-- The pad length computed by `Padding` for a positive block size lies in `1..blockSize`. -/
theorem padLen_bounds (n : Nat) (blockSize : Int) (h : 0 < blockSize) :
    1 ≤ blockSize - (n : Int) % blockSize ∧ blockSize - (n : Int) % blockSize ≤ blockSize := by
  have h1 := Int.emod_nonneg (n : Int) (Int.ne_of_gt h)
  have h2 := Int.emod_lt_of_pos (n : Int) h
  omega

/-- For a positive block size and a pad length that can be allocated, `Padding` returns,
without panic, the source followed by the pad length many copies of `byte(padLen)`. -/
theorem Padding_of_pos (src : List Byte) (blockSize : Int) (h : 0 < blockSize)
    (hmax : blockSize - (src.length : Int) % blockSize ≤ maxAlloc) :
    Padding src blockSize = .ret (src ++
      List.replicate (blockSize - (src.length : Int) % blockSize).toNat
        (toByte (blockSize - (src.length : Int) % blockSize))) := by
  have hb := padLen_bounds src.length blockSize h
  have ht : Int.tmod (src.length : Int) blockSize = (src.length : Int) % blockSize :=
    Int.tmod_eq_emod (Int.ofNat_nonneg _) (Int.le_of_lt h)
  unfold Padding
  simp only [ht]
  rw [if_neg (Int.ne_of_gt h), if_neg (by omega), if_neg (by omega)]

theorem toByte_val (x : Int) : ((toByte x).val : Int) = x % 256 := by
  simp only [toByte]
  omega

theorem toByte_val_of_le (x : Int) (h0 : 0 ≤ x) (h : x ≤ 255) : ((toByte x).val : Int) = x := by
  rw [toByte_val]
  omega

theorem index_last (init : List Byte) (b : Byte) :
    index (init ++ [b]) (((init ++ [b]).length : Int) - 1) = some b := by
  have h : ((init ++ [b]).length : Int) - 1 = (init.length : Int) := by
    simp
  rw [h]
  simp [index]

/-- The result of `Unpadding` on a source that ends with the byte `b`. -/
theorem Unpadding_concat (init : List Byte) (b : Byte) (blockSize : Int) :
    Unpadding (init ++ [b]) blockSize =
      if (b.val : Int) ≥ ((init ++ [b]).length : Int) ∨ (b.val : Int) > blockSize then
        .ret ([], some Err.paddingSize)
      else
        .ret ((init ++ [b]).take (((init ++ [b]).length : Int) - (b.val : Int)).toNat, none) := by
  unfold Unpadding
  simp only [index_last]

theorem eq_concat_of_getLast? {src : List Byte} {b : Byte} (h : src.getLast? = some b) :
    ∃ init, src = init ++ [b] := by
  have hne : src ≠ [] := by
    intro h0
    simp [h0] at h
  refine ⟨src.dropLast, ?_⟩
  have h1 := List.dropLast_append_getLast hne
  rw [List.getLast?_eq_getLast _ hne] at h
  simp only [Option.some.injEq] at h
  rw [h] at h1
  exact h1.symm

/-- Unpadding a padded source: when the source is not empty and the pad length fits a
byte, the source is recovered. -/
theorem Unpadding_Padding_ok (src : List Byte) (blockSize : Int) (hne : src ≠ [])
    (hpos : 0 < blockSize) (hfit : blockSize - (src.length : Int) % blockSize ≤ 255) :
    ∃ padded, Padding src blockSize = .ret padded ∧
      Unpadding padded blockSize = .ret (src, none) := by
  obtain ⟨h1, h2⟩ := padLen_bounds src.length blockSize hpos
  have hmax : blockSize - (src.length : Int) % blockSize ≤ maxAlloc :=
    Int.le_trans hfit (by decide)
  refine ⟨_, Padding_of_pos src blockSize hpos hmax, ?_⟩
  generalize hn : blockSize - (src.length : Int) % blockSize = n at *
  have hlen : 0 < src.length := List.length_pos.mpr hne
  obtain ⟨k, hk⟩ : ∃ k : Nat, n.toNat = k + 1 := ⟨n.toNat - 1, by omega⟩
  have hrep : List.replicate n.toNat (toByte n) = List.replicate k (toByte n) ++ [toByte n] := by
    rw [hk, List.replicate_succ']
  have hv : ((toByte n).val : Int) = n := toByte_val_of_le n (by omega) hfit
  rw [hrep, ← List.append_assoc, Unpadding_concat]
  have hl : (((src ++ List.replicate k (toByte n)) ++ [toByte n]).length : Int)
      = (src.length : Int) + n := by
    simp only [List.length_append, List.length_replicate, List.length_singleton]
    push_cast
    omega
  rw [hl, hv, if_neg (by omega)]
  have ht : ((src.length : Int) + n - n).toNat = src.length := by omega
  rw [ht, List.append_assoc, List.take_left]

/-! ## CBC chaining -/

theorem cbcEncryptBlocks_length (b : Block)
    (hE : ∀ blk : List Byte, blk.length = BlockSize → (b.Encrypt blk).length = BlockSize) :
    ∀ (n : Nat) (iv src : List Byte), iv.length = BlockSize → src.length = BlockSize * n →
      (cbcEncryptBlocks b n iv src).length = BlockSize * n
  | 0, _, _, _, _ => by simp [cbcEncryptBlocks]
  | n + 1, iv, src, hiv, hsrc => by
    have hx : (xorBytes (src.take BlockSize) iv).length = BlockSize := by
      rw [xorBytes_length, List.length_take]
      simp only [BlockSize] at *
      omega
    have hct := hE _ hx
    have hd : (src.drop BlockSize).length = BlockSize * n := by
      rw [List.length_drop]
      simp only [BlockSize] at *
      omega
    have ih := cbcEncryptBlocks_length b hE n _ (src.drop BlockSize) hct hd
    simp only [cbcEncryptBlocks, List.length_append, ih, hct]
    simp only [BlockSize]
    omega

theorem cbcDecryptBlocks_cbcEncryptBlocks (b : Block)
    (hE : ∀ blk : List Byte, blk.length = BlockSize → (b.Encrypt blk).length = BlockSize)
    (hD : ∀ blk : List Byte, blk.length = BlockSize → b.Decrypt (b.Encrypt blk) = blk) :
    ∀ (n : Nat) (iv src : List Byte), iv.length = BlockSize → src.length = BlockSize * n →
      cbcDecryptBlocks b n iv (cbcEncryptBlocks b n iv src) = src
  | 0, _, src, _, hsrc => by
    have : src = [] := List.eq_nil_of_length_eq_zero (by simpa using hsrc)
    simp [cbcDecryptBlocks, cbcEncryptBlocks, this]
  | n + 1, iv, src, hiv, hsrc => by
    have ht : (src.take BlockSize).length = BlockSize := by
      rw [List.length_take]
      simp only [BlockSize] at *
      omega
    have hx : (xorBytes (src.take BlockSize) iv).length = BlockSize := by
      rw [xorBytes_length, ht, hiv]
      simp
    have hct := hE _ hx
    have hd : (src.drop BlockSize).length = BlockSize * n := by
      rw [List.length_drop]
      simp only [BlockSize] at *
      omega
    have ih := cbcDecryptBlocks_cbcEncryptBlocks b hE hD n _ (src.drop BlockSize) hct hd
    simp only [cbcDecryptBlocks, cbcEncryptBlocks]
    rw [List.take_left' hct, List.drop_left' hct, ih, hD _ hx,
      xorBytes_cancel _ _ (by rw [ht, hiv]), List.take_append_drop]

/-! ## The envelope -/

/-- The value of `Padding` at the AES block size. -/
theorem Padding_BlockSize (p : List Byte) :
    Padding p (BlockSize : Nat) = .ret (p ++
      List.replicate (16 - p.length % 16) (toByte (16 - (p.length : Int) % 16))) := by
  have h := Padding_of_pos p 16 (by decide) (by simp only [maxAlloc]; omega)
  have e : (16 - (p.length : Int) % 16).toNat = 16 - p.length % 16 := by omega
  rw [e] at h
  simpa [BlockSize] using h

theorem NewCipher_of_length (c : BlockCipher) (key : List Byte) (hk : key.length = BlockSize) :
    NewCipher c key = .ok ⟨c.encrypt key, c.decrypt key⟩ := by
  simp only [BlockSize] at hk
  simp [NewCipher, hk]

/-- The value of `Encrypt` on a non-empty plaintext with a 16-byte key and a 16-byte IV. -/
theorem Encrypt_value (c : BlockCipher) (key iv p : List Byte) (hp : p ≠ [])
    (hk : key.length = BlockSize) (hiv : iv.length = BlockSize) :
    ∃ padded, Padding p (BlockSize : Nat) = .ret padded ∧
      padded = p ++ List.replicate (16 - p.length % 16) (toByte (16 - (p.length : Int) % 16)) ∧
      ¬ (padded.length < BlockSize ∨ padded.length % BlockSize ≠ 0) ∧
      Encrypt c (some iv) key p = .ret (iv ++
        cbcEncryptBlocks ⟨c.encrypt key, c.decrypt key⟩ (padded.length / BlockSize) iv padded,
        none) := by
  refine ⟨_, Padding_BlockSize p, rfl, ?_, ?_⟩
  · simp only [List.length_append, List.length_replicate, BlockSize]
    omega
  · have hlen : p.length ≠ 0 := fun h => hp (List.eq_nil_of_length_eq_zero h)
    have hal : ¬ ((p ++ List.replicate (16 - p.length % 16)
        (toByte (16 - (p.length : Int) % 16))).length < BlockSize ∨
        (p ++ List.replicate (16 - p.length % 16)
        (toByte (16 - (p.length : Int) % 16))).length % BlockSize ≠ 0) := by
      simp only [List.length_append, List.length_replicate, BlockSize]
      omega
    unfold Encrypt
    rw [if_neg hlen, if_neg (by simp [hk]), Padding_BlockSize]
    simp only []
    rw [if_neg hal, NewCipher_of_length c key hk]
    simp only [cbcEncrypt]
    rw [if_neg (by simp [hiv]), if_neg (by omega)]

/-- The value of `Decrypt` on an envelope made of a 16-byte IV and whole blocks. -/
theorem Decrypt_value (c : BlockCipher) (key iv ct : List Byte)
    (hk : key.length = BlockSize) (hiv : iv.length = BlockSize)
    (hct : ct.length % BlockSize = 0) :
    Decrypt c key (iv ++ ct) =
      Unpadding (cbcDecryptBlocks ⟨c.encrypt key, c.decrypt key⟩ (ct.length / BlockSize) iv ct)
        (BlockSize : Nat) := by
  have h0 : (iv ++ ct).length ≠ 0 := by
    simp only [List.length_append, BlockSize] at *
    omega
  have h1 : ¬ (iv ++ ct).length % BlockSize ≠ 0 := by
    simp only [List.length_append, BlockSize] at *
    omega
  unfold Decrypt
  rw [if_neg h0, if_neg h1, if_neg (by simp [hk]), NewCipher_of_length c key hk]
  simp only [List.take_left' hiv, List.drop_left' hiv, cbcDecrypt]
  rw [if_neg (by simp [hiv]), if_neg (by simp [hct])]

/-- An envelope that holds an IV and nothing else makes `Decrypt` panic, whatever the
cipher and the 16-byte key. -/
theorem Decrypt_of_bare_iv (c : BlockCipher) (key iv : List Byte)
    (hk : key.length = BlockSize) (hiv : iv.length = BlockSize) :
    Decrypt c key iv = .panic := by
  have h := Decrypt_value c key iv [] hk hiv (by simp)
  simp only [List.append_nil] at h
  rw [h]
  simp [cbcDecryptBlocks, Unpadding, index]

/-- The function `Unpadding` panics on an empty source, whatever the block size. -/
theorem Unpadding_nil (blockSize : Int) : Unpadding [] blockSize = .panic := by
  simp [Unpadding, index]

/-- The pad that `Padding([]byte{1}, MaxInt64)` asks of `bytes.Repeat` cannot be
allocated: the call panics. -/
theorem Padding_beyond_maxAlloc : Padding [1] 9223372036854775807 = .panic := by
  decide

/-! ## The claims -/

/-- C1. Round trip of the envelope: for every lawful block cipher, every non-empty
plaintext `p`, every 16-byte key and every 16-byte IV read by `Encrypt`, `Encrypt`
returns an envelope `e` without error and `Decrypt` of `e` under the same key returns
exactly `p` without error. -/
theorem Decrypt_Encrypt_roundtrip (c : BlockCipher) (hc : c.Lawful) (key iv p : List Byte)
    (hp : p ≠ []) (hk : key.length = 16) (hiv : iv.length = 16) :
    ∃ e, Encrypt c (some iv) key p = .ret (e, none) ∧ Decrypt c key e = .ret (p, none) := by
  obtain ⟨padded, hpad, _, hal, henc⟩ := Encrypt_value c key iv p hp hk hiv
  refine ⟨_, henc, ?_⟩
  have hE : ∀ blk : List Byte, blk.length = BlockSize →
      (c.encrypt key blk).length = BlockSize := fun blk hb => hc.1 key blk hk hb
  have hD : ∀ blk : List Byte, blk.length = BlockSize →
      c.decrypt key (c.encrypt key blk) = blk := fun blk hb => hc.2 key blk hk hb
  have hmul : padded.length = BlockSize * (padded.length / BlockSize) := by
    simp only [BlockSize] at hal ⊢
    omega
  have hlen := cbcEncryptBlocks_length ⟨c.encrypt key, c.decrypt key⟩ hE _ iv padded hiv hmul
  have hrt := cbcDecryptBlocks_cbcEncryptBlocks ⟨c.encrypt key, c.decrypt key⟩ hE hD _ iv padded
    hiv hmul
  rw [Decrypt_value c key iv _ hk hiv (by rw [hlen]; simp), hlen,
    Nat.mul_div_cancel_left _ (by decide : 0 < BlockSize), hrt]
  obtain ⟨padded2, hpad2, hun⟩ := Unpadding_Padding_ok p 16 hp (by decide) (by omega)
  have e16 : ((BlockSize : Nat) : Int) = 16 := rfl
  rw [e16] at hpad ⊢
  rw [hpad] at hpad2
  cases hpad2
  exact hun

/-- Witness of C1: the text "hello" under the zero key. -/
theorem Decrypt_Encrypt_roundtrip_witness :
    xorCipher.Lawful ∧ hello ≠ [] ∧ zeroKey.length = 16 ∧ sampleIV.length = 16 ∧
    ∃ e, Encrypt xorCipher (some sampleIV) zeroKey hello = .ret (e, none) ∧
      Decrypt xorCipher zeroKey e = .ret (hello, none) :=
  ⟨xorCipher_lawful, by decide, by decide, by decide,
    Decrypt_Encrypt_roundtrip xorCipher xorCipher_lawful zeroKey sampleIV hello
      (by decide) (by decide) (by decide)⟩

/-- C2, as amended. Padding round trip: for every non-empty `src` and every
`blockSize > 0` whose pad length `blockSize - len(src) mod blockSize` is at most 255
(in particular every `blockSize` from 1 to 255), `Padding` returns and `Unpadding` of
its result succeeds and returns exactly `src`. -/
theorem Unpadding_Padding_roundtrip (src : List Byte) (blockSize : Int) (hne : src ≠ [])
    (hpos : 0 < blockSize) (hfit : blockSize - (src.length : Int) % blockSize ≤ 255) :
    ∃ padded, Padding src blockSize = .ret padded ∧
      Unpadding padded blockSize = .ret (src, none) :=
  Unpadding_Padding_ok src blockSize hne hpos hfit

/-- Witness of C2 as amended: the text "hello" and block size 16. -/
theorem Unpadding_Padding_roundtrip_witness :
    hello ≠ [] ∧ (0 : Int) < 16 ∧ (16 : Int) - (hello.length : Int) % 16 ≤ 255 ∧
    ∃ padded, Padding hello 16 = .ret padded ∧ Unpadding padded 16 = .ret (hello, none) :=
  ⟨by decide, by decide, by decide,
    Unpadding_Padding_roundtrip hello 16 (by decide) (by decide) (by decide)⟩

set_option maxRecDepth 100000

/-- Counterexample to C2 as stated: the padded form of the empty source (sixteen
bytes 16) is rejected by `Unpadding` with the padding error, and with block size 257
the source `[7]` is padded with 256 bytes of value 0, of which `Unpadding` removes none. -/
theorem Unpadding_Padding_counterexample :
    (Padding [] 16 = .ret (List.replicate 16 16) ∧
      Unpadding (List.replicate 16 16) 16 = .ret ([], some Err.paddingSize)) ∧
    (Padding [7] 257 = .ret (7 :: List.replicate 256 0) ∧
      Unpadding (7 :: List.replicate 256 0) 257 = .ret (7 :: List.replicate 256 0, none) ∧
      Unpadding (7 :: List.replicate 256 0) 257 ≠ .ret ([7], none)) := by
  decide

/-- C3, as amended. Unpadding contract: for every non-empty `src` and every
`blockSize`, with `n` the value of the last byte of `src`, `Unpadding` fails with the
padding error exactly when `n ≥ len(src)` or `n > blockSize`, and in every other case
succeeds and returns `src[:len(src)-n]`. -/
theorem Unpadding_contract (src : List Byte) (n : Byte) (blockSize : Int)
    (hlast : src.getLast? = some n) :
    (Unpadding src blockSize = .ret ([], some Err.paddingSize) ↔
      ((n.val : Int) ≥ (src.length : Int) ∨ (n.val : Int) > blockSize)) ∧
    (¬ ((n.val : Int) ≥ (src.length : Int) ∨ (n.val : Int) > blockSize) →
      Unpadding src blockSize = .ret (src.take (src.length - n.val), none)) := by
  obtain ⟨init, rfl⟩ := eq_concat_of_getLast? hlast
  rw [Unpadding_concat]
  have ht : (((init ++ [n]).length : Int) - (n.val : Int)).toNat
      = (init ++ [n]).length - n.val := by omega
  rw [ht]
  by_cases hc : (n.val : Int) ≥ ((init ++ [n]).length : Int) ∨ (n.val : Int) > blockSize
  · rw [if_pos hc]
    exact ⟨⟨fun _ => hc, fun _ => rfl⟩, fun h => absurd hc h⟩
  · rw [if_neg hc]
    refine ⟨⟨fun h => ?_, fun h => absurd h hc⟩, fun _ => rfl⟩
    simp at h

/-- Witness of C3 as amended: the source `[5, 1]` and block size 16. -/
theorem Unpadding_contract_witness :
    ([5, 1] : List Byte).getLast? = some 1 ∧
    (Unpadding [5, 1] 16 = .ret ([], some Err.paddingSize) ↔
      (((1 : Byte).val : Int) ≥ (([5, 1] : List Byte).length : Int) ∨
        ((1 : Byte).val : Int) > 16)) ∧
    (¬ (((1 : Byte).val : Int) ≥ (([5, 1] : List Byte).length : Int) ∨
        ((1 : Byte).val : Int) > 16) →
      Unpadding [5, 1] 16 =
        .ret (([5, 1] : List Byte).take (([5, 1] : List Byte).length - (1 : Byte).val), none)) :=
  ⟨by decide, Unpadding_contract [5, 1] 1 16 (by decide)⟩

/-- Counterexample to C3 as stated: for the one-byte source `[1]` the last byte has
value `n = 1 = len(src)`, neither `n > len(src)` nor `n > blockSize` holds, and yet
`Unpadding` fails with the padding error instead of returning `src[:0]`. -/
theorem Unpadding_contract_counterexample :
    ¬ (((1 : Byte).val : Int) > (([1] : List Byte).length : Int) ∨ ((1 : Byte).val : Int) > 16) ∧
    Unpadding [1] 16 = .ret ([], some Err.paddingSize) ∧
    Unpadding [1] 16 ≠
      .ret (([1] : List Byte).take (([1] : List Byte).length - (1 : Byte).val), none) := by
  decide

/-- C4. Evaluation at the failing input: `Unpadding` of the empty source panics (index
out of range) instead of returning the padding error, and so does `Decrypt` of a
16-byte envelope (an IV and no ciphertext block) under a 16-byte key. -/
theorem Decrypt_iv_only_panics :
    Unpadding [] 16 = .panic ∧ Decrypt xorCipher zeroKey sampleIV = .panic := by
  decide

/-- C5, as amended. Key-length validation: for every key whose length is not 16,
`Encrypt` fails with the key-length error for every non-empty plaintext, and
`Decrypt` fails with the key-length error for every non-empty envelope whose length
is a multiple of 16; both return an empty byte sequence. -/
theorem key_length_validation (c : BlockCipher) (rnd : Option (List Byte)) (key : List Byte)
    (hk : key.length ≠ 16) :
    (∀ p : List Byte, p ≠ [] → Encrypt c rnd key p = .ret ([], some Err.keyLength)) ∧
    (∀ e : List Byte, e ≠ [] → e.length % 16 = 0 →
      Decrypt c key e = .ret ([], some Err.keyLength)) := by
  constructor
  · intro p hp
    have hlen : p.length ≠ 0 := fun h => hp (List.eq_nil_of_length_eq_zero h)
    unfold Encrypt
    rw [if_neg hlen, if_pos (by simpa [BlockSize] using hk)]
  · intro e he hal
    have hlen : e.length ≠ 0 := fun h => he (List.eq_nil_of_length_eq_zero h)
    unfold Decrypt
    rw [if_neg hlen, if_neg (by simpa [BlockSize] using hal),
      if_pos (by simpa [BlockSize] using hk)]

/-- Witness of C5 as amended: the three-byte key `[1, 2, 3]`. -/
theorem key_length_validation_witness :
    ([1, 2, 3] : List Byte).length ≠ 16 ∧
    (∀ p : List Byte, p ≠ [] →
      Encrypt xorCipher (some sampleIV) [1, 2, 3] p = .ret ([], some Err.keyLength)) ∧
    (∀ e : List Byte, e ≠ [] → e.length % 16 = 0 →
      Decrypt xorCipher [1, 2, 3] e = .ret ([], some Err.keyLength)) :=
  ⟨by decide, key_length_validation xorCipher (some sampleIV) [1, 2, 3] (by decide)⟩

/-- Counterexample to C5 as stated: with the three-byte key `[1, 2, 3]`, `Encrypt` of
the empty plaintext fails with the empty-plaintext error, `Decrypt` of the empty
envelope with the empty-ciphertext error and `Decrypt` of a one-byte envelope with
the alignment error: none of the three is the key-length error. -/
theorem key_length_validation_counterexample :
    ([1, 2, 3] : List Byte).length ≠ 16 ∧
    Encrypt xorCipher (some sampleIV) [1, 2, 3] [] = .ret ([], some Err.plaintextEmpty) ∧
    Decrypt xorCipher [1, 2, 3] [] = .ret ([], some Err.cipherTextEmpty) ∧
    Decrypt xorCipher [1, 2, 3] [9] = .ret ([], some Err.ciphertextNotMultiple) ∧
    Encrypt xorCipher (some sampleIV) [1, 2, 3] [] ≠ .ret ([], some Err.keyLength) ∧
    Decrypt xorCipher [1, 2, 3] [] ≠ .ret ([], some Err.keyLength) ∧
    Decrypt xorCipher [1, 2, 3] [9] ≠ .ret ([], some Err.keyLength) := by
  decide

/-- C6. Envelope shape: for every size-keeping block cipher, every non-empty plaintext
`p`, every 16-byte key and every 16-byte IV read, the padded plaintext passes the
alignment check of `Encrypt`, and `Encrypt` succeeds with the IV followed by the
ciphertext, which is the CBC encryption of the padded plaintext under the key seeded
by the IV (its first block is the encryption of the first padded block xor-ed with the
IV) and is as long as the padded plaintext: the first 16 bytes of the envelope are the
IV and its length is `16 + len(p) + (16 - len(p) mod 16)`. -/
theorem Encrypt_envelope_shape (c : BlockCipher) (hc : c.KeepsSize) (key iv p : List Byte)
    (hp : p ≠ []) (hk : key.length = 16) (hiv : iv.length = 16) :
    ∃ padded ct : List Byte,
      Padding p (BlockSize : Nat) = .ret padded ∧
      ¬ (padded.length < BlockSize ∨ padded.length % BlockSize ≠ 0) ∧
      ct = cbcEncryptBlocks ⟨c.encrypt key, c.decrypt key⟩ (padded.length / BlockSize) iv padded ∧
      ct.take 16 = c.encrypt key (xorBytes (padded.take 16) iv) ∧
      Encrypt c (some iv) key p = .ret (iv ++ ct, none) ∧
      (iv ++ ct).take 16 = iv ∧
      ct.length = padded.length ∧
      (iv ++ ct).length = 16 + p.length + (16 - p.length % 16) := by
  obtain ⟨padded, hpad, hval, hal, henc⟩ := Encrypt_value c key iv p hp hk hiv
  have hE : ∀ blk : List Byte, blk.length = BlockSize →
      (c.encrypt key blk).length = BlockSize := fun blk hb => hc key blk hk hb
  have hmul : padded.length = BlockSize * (padded.length / BlockSize) := by
    simp only [BlockSize] at hal ⊢
    omega
  have hlen := cbcEncryptBlocks_length ⟨c.encrypt key, c.decrypt key⟩ hE _ iv padded hiv hmul
  rw [← hmul] at hlen
  have hfirst : (cbcEncryptBlocks ⟨c.encrypt key, c.decrypt key⟩ (padded.length / BlockSize)
      iv padded).take 16 = c.encrypt key (xorBytes (padded.take 16) iv) := by
    obtain ⟨k, hk1⟩ : ∃ k, padded.length / BlockSize = k + 1 :=
      ⟨padded.length / BlockSize - 1, by simp only [BlockSize] at hal ⊢; omega⟩
    have hx : (xorBytes (padded.take BlockSize) iv).length = BlockSize := by
      rw [xorBytes_length, List.length_take]
      simp only [BlockSize] at hal ⊢
      omega
    rw [hk1]
    simp only [cbcEncryptBlocks]
    exact List.take_left' (hE _ hx)
  refine ⟨padded, _, hpad, hal, rfl, hfirst, henc, List.take_left' hiv, hlen, ?_⟩
  rw [List.length_append, hlen, hiv, hval, List.length_append, List.length_replicate]
  omega

/-- Witness of C6: the key of 16 zero bytes and the plaintext "hello" give an envelope
of `16 + 5 + 11 = 32` bytes. -/
theorem Encrypt_envelope_shape_witness :
    xorCipher.KeepsSize ∧ hello ≠ [] ∧ zeroKey.length = 16 ∧ sampleIV.length = 16 ∧
    ∃ padded ct : List Byte,
      Padding hello (BlockSize : Nat) = .ret padded ∧
      ¬ (padded.length < BlockSize ∨ padded.length % BlockSize ≠ 0) ∧
      ct = cbcEncryptBlocks ⟨xorCipher.encrypt zeroKey, xorCipher.decrypt zeroKey⟩
        (padded.length / BlockSize) sampleIV padded ∧
      ct.take 16 = xorCipher.encrypt zeroKey (xorBytes (padded.take 16) sampleIV) ∧
      Encrypt xorCipher (some sampleIV) zeroKey hello = .ret (sampleIV ++ ct, none) ∧
      (sampleIV ++ ct).take 16 = sampleIV ∧
      ct.length = padded.length ∧
      (sampleIV ++ ct).length = 16 + hello.length + (16 - hello.length % 16) :=
  ⟨xorCipher_lawful.1, by decide, by decide, by decide,
    Encrypt_envelope_shape xorCipher xorCipher_lawful.1 zeroKey sampleIV hello
      (by decide) (by decide) (by decide)⟩

/-- C7, as amended. Padding contract: for every `src` and every `blockSize > 0` whose
pad length `n = blockSize - (len(src) mod blockSize)` is at most 255 (in particular
every `blockSize` from 1 to 255), `Padding` returns `src` followed by exactly `n`
bytes, each of value `n`, with `1 ≤ n ≤ blockSize` (a whole extra block when `src` is
already aligned), so that the length of the result is a multiple of `blockSize`. -/
theorem Padding_contract (src : List Byte) (blockSize : Int) (hpos : 0 < blockSize)
    (hfit : blockSize - (src.length : Int) % blockSize ≤ 255) :
    ∃ (n : Nat) (pad : List Byte),
      (n : Int) = blockSize - (src.length : Int) % blockSize ∧
      1 ≤ n ∧ (n : Int) ≤ blockSize ∧
      Padding src blockSize = .ret (src ++ pad) ∧
      pad.length = n ∧
      (∀ b ∈ pad, b.val = n) ∧
      ((src ++ pad).length : Int) % blockSize = 0 := by
  obtain ⟨h1, h2⟩ := padLen_bounds src.length blockSize hpos
  have hP := Padding_of_pos src blockSize hpos (Int.le_trans hfit (by decide))
  have hq := Int.emod_add_ediv (src.length : Int) blockSize
  generalize hm : blockSize - (src.length : Int) % blockSize = m at *
  have hmn : ((m.toNat : Nat) : Int) = m := Int.toNat_of_nonneg (by omega)
  have hv : ∀ b ∈ List.replicate m.toNat (toByte m), b.val = m.toNat := by
    intro b hb
    rw [List.eq_of_mem_replicate hb]
    have := toByte_val_of_le m (by omega) hfit
    omega
  refine ⟨m.toNat, List.replicate m.toNat (toByte m), hmn, by omega, by omega, hP,
    List.length_replicate _ _, hv, ?_⟩
  have e : (((src ++ List.replicate m.toNat (toByte m)).length : Nat) : Int)
      = blockSize * ((src.length : Int) / blockSize + 1) := by
    rw [List.length_append, List.length_replicate]
    push_cast
    rw [hmn]
    linarith
  rw [e]
  exact Int.mul_emod_right _ _

/-- Witness of C7 as amended: the text "hello" and block size 16. -/
theorem Padding_contract_witness :
    (0 : Int) < 16 ∧ (16 : Int) - (hello.length : Int) % 16 ≤ 255 ∧
    ∃ (n : Nat) (pad : List Byte),
      (n : Int) = 16 - (hello.length : Int) % 16 ∧
      1 ≤ n ∧ (n : Int) ≤ 16 ∧
      Padding hello 16 = .ret (hello ++ pad) ∧
      pad.length = n ∧
      (∀ b ∈ pad, b.val = n) ∧
      ((hello ++ pad).length : Int) % 16 = 0 :=
  ⟨by decide, by decide, Padding_contract hello 16 (by decide) (by decide)⟩

/-- Counterexample to C7 as stated: with block size 256 the empty source gets
`n = 256` pad bytes, and each of them has value 0, not `n`. -/
theorem Padding_contract_counterexample :
    Padding [] 256 = .ret ([] ++ List.replicate 256 (0 : Byte)) ∧
    (256 : Int) - ((([] : List Byte).length : Nat) : Int) % 256 = 256 ∧
    ∀ b ∈ List.replicate 256 (0 : Byte), (b.val : Int) ≠ 256 := by
  refine ⟨by decide, by decide, ?_⟩
  intro b hb
  rw [List.eq_of_mem_replicate hb]
  decide

/-- C8. Alignment rejection: for every cipher, every key (of any length) and every
non-empty envelope whose length is not a multiple of 16, `Decrypt` fails with the
alignment error and returns empty output; the result depends neither on the key nor
on the cipher, the check preceding the construction of the cipher. -/
theorem Decrypt_alignment_rejection (c : BlockCipher) (key e : List Byte) (he : e ≠ [])
    (hal : e.length % 16 ≠ 0) :
    Decrypt c key e = .ret ([], some Err.ciphertextNotMultiple) := by
  have hlen : e.length ≠ 0 := fun h => he (List.eq_nil_of_length_eq_zero h)
  unfold Decrypt
  rw [if_neg hlen, if_pos (by simpa [BlockSize] using hal)]

/-- Witness of C8: the empty key and a five-byte envelope. -/
theorem Decrypt_alignment_rejection_witness :
    hello ≠ [] ∧ hello.length % 16 ≠ 0 ∧
    Decrypt xorCipher [] hello = .ret ([], some Err.ciphertextNotMultiple) :=
  ⟨by decide, by decide, Decrypt_alignment_rejection xorCipher [] hello (by decide) (by decide)⟩

/-- C9. Empty-input rejection: for every cipher, every outcome of the random read and
every key (of any length), `Encrypt` of the empty plaintext fails with the
empty-plaintext error and `Decrypt` of the empty envelope fails with the
empty-ciphertext error, each with an empty byte sequence as output. -/
theorem empty_input_rejection (c : BlockCipher) (rnd : Option (List Byte)) (key : List Byte) :
    Encrypt c rnd key [] = .ret ([], some Err.plaintextEmpty) ∧
    Decrypt c key [] = .ret ([], some Err.cipherTextEmpty) := by
  constructor
  · simp [Encrypt]
  · simp [Decrypt]

/-- C10, as amended. Encode path of the wrapper: for every `JSONPbAES` configuration
whose embedded `MarshalOptions` has its own `UseAESEncryption` flag off, and every
protobuf message `p` that the external encoder encodes to bytes `b`, `Marshal` returns
`b` unchanged when the flag of the wrapper is off and returns
`Encrypt(AESEncryptionKey, b)`, with the key of the wrapper, when it is on. -/
theorem Marshal_transparent {Msg Other : Type} (c : BlockCipher)
    (rndInner rndOuter : Option (List Byte)) (nonProto : Other → Run BytesErr)
    (j : JSONPbAES Msg) (encode : Msg → BytesErr) (p : Msg) (b : List Byte)
    (henc : j.MarshalOptions.protojson = some encode) (hb : encode p = (b, none))
    (hinner : j.MarshalOptions.UseAESEncryption = false) :
    (j.UseAESEncryption = false →
      j.Marshal c rndInner rndOuter nonProto (.message p) = .ret (b, none)) ∧
    (j.UseAESEncryption = true →
      j.Marshal c rndInner rndOuter nonProto (.message p)
        = Encrypt c rndOuter j.AESEncryptionKey b) := by
  have hm : j.marshal c rndInner nonProto (.message p) = .ret (b, none) := by
    simp [JSONPbAES.marshal, JSONPbAES.marshalTo, MarshalOptions.Marshal, henc, hb, hinner]
  constructor
  · intro hf
    simp [JSONPbAES.Marshal, hm, hf]
  · intro ht
    simp [JSONPbAES.Marshal, hm, ht]

/-- Witness of C10 as amended: a configuration with only the flag of the wrapper on. -/
theorem Marshal_transparent_witness :
    outerOnly.MarshalOptions.protojson = some constEncoder ∧
    constEncoder () = (emptyObject, none) ∧
    outerOnly.MarshalOptions.UseAESEncryption = false ∧
    (outerOnly.UseAESEncryption = false →
      outerOnly.Marshal xorCipher none (some sampleIV) noOther (.message ())
        = .ret (emptyObject, none)) ∧
    (outerOnly.UseAESEncryption = true →
      outerOnly.Marshal xorCipher none (some sampleIV) noOther (.message ())
        = Encrypt xorCipher (some sampleIV) outerOnly.AESEncryptionKey emptyObject) :=
  ⟨rfl, rfl, rfl,
    Marshal_transparent xorCipher none (some sampleIV) noOther outerOnly constEncoder ()
      emptyObject rfl rfl rfl⟩

/-- Counterexample to C10 as stated: with the flag of the wrapper off and the flag of
the embedded `MarshalOptions` on, `Marshal` does not return the encoded bytes
unchanged: it returns them encrypted under the key of the embedded options. -/
theorem Marshal_transparent_counterexample :
    innerOnly.UseAESEncryption = false ∧
    innerOnly.MarshalOptions.protojson = some constEncoder ∧
    constEncoder () = (emptyObject, none) ∧
    innerOnly.Marshal xorCipher (some sampleIV) none noOther (.message ())
      ≠ .ret (emptyObject, none) ∧
    innerOnly.Marshal xorCipher (some sampleIV) none noOther (.message ())
      = Encrypt xorCipher (some sampleIV) innerOnly.MarshalOptions.AESEncryptionKey
          emptyObject := by
  decide

end Protojsonaes
